import Mathlib

/-!
Shallow embedding of the URL frontier subsystem of mwmbl
(src/mwmbl/crawler/urls.py): the `URLStatus` lifecycle, the `batch`
chunking helper, and the three operations of `URLDatabase`
(`update_found_urls`, `get_new_batch_for_user`, `get_url_scores`) over an
explicit store modelling the `urls` table.

Modelling choices:
- the `urls` table is a list of `(url, record)` pairs; the `url` column is
  a primary key, so lookups read the first matching entry;
- the SQL `FLOAT` score column is modelled with exact rationals;
- timestamps are integers counting seconds, so `timedelta(hours=1)` is
  `3600`;
- the status column is an `INT`, so records hold the numeric value of a
  `URLStatus` (that is what `GREATEST` and the `CASE` comparisons in the
  upsert act on);
- row locks held by concurrent transactions are an environment parameter
  `busy : Url → Bool`; a `SELECT ... FOR UPDATE SKIP LOCKED` returns the
  matching rows that are not busy.
-/

abbrev Url := String

abbrev UserId := String

abbrev Score := ℚ

abbrev Time := ℤ

/-- Client has one hour to crawl a URL that has been assigned to them,
or it will be reassigned (constant `REASSIGN_MIN_HOURS = 1`). -/
def REASSIGN_MIN_HOURS : ℤ := 1

/-- Constant `BATCH_SIZE = 100` bounding `get_new_batch_for_user`. -/
def BATCH_SIZE : ℕ := 100

/-- Seconds in one hour: `timedelta(hours=h)` is `h * 3600` seconds. -/
def HOUR_SECONDS : ℤ := 3600

/-- The `URLStatus` enum: URL state update is idempotent and can only
progress forwards. -/
inductive URLStatus
  | NEW
  | ASSIGNED
  | ERROR_TIMEOUT
  | ERROR_404
  | ERROR_OTHER
  | ERROR_ROBOTS_DENIED
  | CRAWLED
  deriving DecidableEq, Repr

/-- Numeric value of each `URLStatus` member, as in the Python enum. -/
def URLStatus.value : URLStatus → ℕ
  | .NEW => 0
  | .ASSIGNED => 10
  | .ERROR_TIMEOUT => 20
  | .ERROR_404 => 30
  | .ERROR_OTHER => 40
  | .ERROR_ROBOTS_DENIED => 50
  | .CRAWLED => 100

/-- The `batch` generator: `for ndx in range(0, length, batch_size):
yield items[ndx:min(ndx + batch_size, length)]`, collected into a list.
`range(0, length, batch_size)` has `⌈length / batch_size⌉` elements and
the slice `items[a:b]` is `(items.drop a).take (b - a)`. -/
def batch {α : Type} (items : List α) (batch_size : ℕ) : List (List α) :=
  (List.range' 0 ((items.length + batch_size - 1) / batch_size) batch_size).map
    (fun ndx => (items.drop ndx).take (min (ndx + batch_size) items.length - ndx))

/-- The `FoundURL` dataclass: one report about one URL. -/
structure FoundURL where
  url : Url
  user_id_hash : UserId
  score : Score
  status : URLStatus
  timestamp : Time
  deriving DecidableEq, Repr

/-- One row of the `urls` table (minus the primary-key `url` column):
`status INT`, `user_id_hash VARCHAR`, `score FLOAT`, `updated TIMESTAMP`. -/
structure URLRecord where
  status : ℕ
  user_id_hash : UserId
  score : Score
  updated : Time
  deriving DecidableEq, Repr

/-- The `urls` table: `url` is the primary key. -/
abbrev Store := List (Url × URLRecord)

/-- Read the row for a URL (first matching entry; with a `Nodup` key list
there is at most one). -/
def storeGet (s : Store) (u : Url) : Option URLRecord :=
  (s.find? (fun p => p.1 = u)).map (·.2)

/-- Replace the row for a URL in place. -/
def storeSet (s : Store) (u : Url) (r : URLRecord) : Store :=
  s.map (fun p => if p.1 = u then (u, r) else p)

/-- Row produced for a fresh URL by the `INSERT` branch of the upsert. -/
def insertRecord (f : FoundURL) : URLRecord :=
  { status := f.status.value
    user_id_hash := f.user_id_hash
    score := f.score
    updated := f.timestamp }

/-- The `ON CONFLICT (url) DO UPDATE SET` clause of `update_found_urls`:
`status = GREATEST(urls.status, excluded.status)`,
`user_id_hash = CASE WHEN urls.status > excluded.status THEN
urls.user_id_hash ELSE excluded.user_id_hash END`,
`score = urls.score + excluded.score`,
`updated = CASE WHEN urls.status > excluded.status THEN urls.updated ELSE
excluded.updated END`. All `urls.*` references read the pre-update row. -/
def mergeRecord (old : URLRecord) (f : FoundURL) : URLRecord :=
  { status := max old.status f.status.value
    user_id_hash := if old.status > f.status.value then old.user_id_hash else f.user_id_hash
    score := old.score + f.score
    updated := if old.status > f.status.value then old.updated else f.timestamp }

/-- Effect of the bulk upsert on one value row: insert when the URL is
absent, otherwise apply the conflict-resolution clause. -/
def upsertOne (s : Store) (f : FoundURL) : Store :=
  match storeGet s f.url with
  | some old => storeSet s f.url (mergeRecord old f)
  | none => s ++ [(f.url, insertRecord f)]

/-- The failure of the `assert len(input_urls) == len(set(input_urls))`
precondition check in `update_found_urls`. -/
inductive MergeError
  | duplicateUrl
  deriving DecidableEq, Repr

/-- Outcome of a successful `update_found_urls` call: the table after the
bulk upsert, together with the applied row count and the requested row
count whose mismatch the function prints. -/
structure MergeResult where
  store : Store
  appliedCount : ℕ
  requestedCount : ℕ
  deriving Repr

/-- The value rows passed to `execute_values` in `update_found_urls`:
reports sorted by URL (`sorted(found_urls, key=lambda x: x.url)`)
restricted to `urls_to_insert = new_urls | locked_urls`, where `new_urls`
are input URLs absent from the table and `locked_urls` are the present
input URLs returned by `SELECT ... FOR UPDATE SKIP LOCKED`, i.e. those
not currently locked by a concurrent transaction. -/
def upsertData (s : Store) (found_urls : List FoundURL) (busy : Url → Bool) : List FoundURL :=
  let input_urls := found_urls.map (·.url)
  let new_urls := input_urls.filter (fun u => (storeGet s u).isNone)
  let locked_urls := input_urls.filter (fun u => (storeGet s u).isSome && !busy u)
  let urls_to_insert := new_urls ++ locked_urls
  let sorted_urls := found_urls.mergeSort (fun a b => a.url ≤ b.url)
  sorted_urls.filter (fun f => f.url ∈ urls_to_insert)

/-- The `update_found_urls` method: empty input returns at once; the
duplicate-URL assertion is checked before the transaction is opened;
the bulk upsert then applies `upsertData` row by row. -/
def update_found_urls (s : Store) (found_urls : List FoundURL) (busy : Url → Bool) :
    Except MergeError MergeResult :=
  if found_urls.length = 0 then .ok ⟨s, 0, 0⟩
  else
    let input_urls := found_urls.map (·.url)
    if input_urls.Nodup then
      let data := upsertData s found_urls busy
      .ok ⟨data.foldl upsertOne s, data.length, found_urls.length⟩
    else .error .duplicateUrl

/-- The table as the caller sees it after a call: unchanged when the call
failed validation, the result store otherwise. -/
def storeAfter (s : Store) (e : Except MergeError MergeResult) : Store :=
  match e with
  | .ok r => r.store
  | .error _ => s

/-- The selection predicate of `get_new_batch_for_user`:
`status = NEW OR (status = ASSIGNED AND updated < min_updated_date)`. -/
def is_eligible (r : URLRecord) (min_updated_date : Time) : Bool :=
  r.status = URLStatus.NEW.value ||
    (r.status = URLStatus.ASSIGNED.value && r.updated < min_updated_date)

/-- The `get_new_batch_for_user` method: one `UPDATE ... WHERE url IN
(SELECT ... ORDER BY score DESC LIMIT 100 FOR UPDATE SKIP LOCKED)
RETURNING url` statement with `min_updated_date = now -
timedelta(hours=REASSIGN_MIN_HOURS)`. Eligible non-busy rows are ordered
by score descending, the first `BATCH_SIZE` are set to
`(ASSIGNED, user_id_hash, now)` keeping their score, and their URLs are
returned. -/
def get_new_batch_for_user (s : Store) (user_id_hash : UserId) (now : Time)
    (busy : Url → Bool) : List Url × Store :=
  let min_updated_date := now - HOUR_SECONDS * REASSIGN_MIN_HOURS
  let candidates := s.filter (fun p => is_eligible p.2 min_updated_date && !busy p.1)
  let sorted := candidates.mergeSort (fun a b => b.2.score ≤ a.2.score)
  let selected : List Url := (sorted.take BATCH_SIZE).map (·.1)
  let s2 := s.map (fun p =>
    if p.1 ∈ selected then (p.1, ⟨URLStatus.ASSIGNED.value, user_id_hash, p.2.score, now⟩) else p)
  (selected, s2)

/-- Result mapping of `get_url_scores`, keyed by URL. -/
abbrev ScoreMap := Url → Option Score

/-- Python `dict.update`: keys of the second mapping override the first. -/
def dictUpdate (m1 m2 : ScoreMap) : ScoreMap :=
  fun u =>
    match m2 u with
    | some v => some v
    | none => m1 u

/-- Mapping produced by one chunk query
`SELECT url, score FROM urls WHERE url IN chunk`. -/
def chunkScores (s : Store) (chunk : List Url) : ScoreMap :=
  fun u => if u ∈ chunk then (storeGet s u).map (·.score) else none

/-- The `get_url_scores` method: fold `dict.update` of the per-chunk
query results over `batch(urls, 10000)`, starting from the empty dict. -/
def get_url_scores (s : Store) (urls : List Url) : ScoreMap :=
  (batch urls 10000).foldl
    (fun url_scores url_batch => dictUpdate url_scores (chunkScores s url_batch))
    (fun _ => none)

/-- The statements of `update_found_urls` that interact with rows of the
`urls` table, plus the sort, in the order the method executes them:
the existence query `get_urls_sql`, the non-blocking lock acquisition
`lock_urls_sql` (`FOR UPDATE SKIP LOCKED`), the
`sorted(found_urls, key=lambda x: x.url)` call, and the bulk
`execute_values` upsert. -/
inductive MergeStep
  | readExisting
  | acquireLocks
  | sortReports
  | bulkUpsert
  deriving DecidableEq, Repr

/-- Execution order of the steps inside one `update_found_urls` call,
as they appear in the method body. -/
def mergeCallSteps : List MergeStep :=
  [.readExisting, .acquireLocks, .sortReports, .bulkUpsert]

/-- Which steps of `update_found_urls` touch rows of the `urls` table. -/
def MergeStep.touchesRows : MergeStep → Bool
  | .readExisting => true
  | .acquireLocks => true
  | .sortReports => false
  | .bulkUpsert => true

/-- The persisted status of a URL, as an enum value. -/
def statusOf (s : Store) (u : Url) : Option ℕ :=
  (storeGet s u).map (·.status)

/-- A sequence of single-report `update_found_urls` calls, none skipped
by contention. -/
def runMerges (s : Store) (fs : List FoundURL) : Store :=
  fs.foldl (fun st f => storeAfter st (update_found_urls st [f] (fun _ => false))) s

/-- Applied row count of a merge call (`0` for a failed call). -/
def appliedOf (e : Except MergeError MergeResult) : ℕ :=
  match e with
  | .ok r => r.appliedCount
  | .error _ => 0

/-- Requested row count of a merge call (`0` for a failed call). -/
def requestedOf (e : Except MergeError MergeResult) : ℕ :=
  match e with
  | .ok r => r.requestedCount
  | .error _ => 0

/-! Helper lemmas about the store. -/

/-- `storeSet` preserves every key. -/
theorem storeSet_key (u : Url) (r : URLRecord) (p : Url × URLRecord) :
    (if p.1 = u then (u, r) else p).1 = p.1 := by
  by_cases h : p.1 = u <;> simp [h]

/-- Reading any URL after `storeSet`: the targeted row (when present)
now holds the new record, every other row is unchanged. -/
theorem storeGet_storeSet (s : Store) (u v : Url) (r : URLRecord) :
    storeGet (storeSet s u r) v =
      (storeGet s v).map (fun old => if v = u then r else old) := by
  unfold storeGet storeSet
  rw [List.find?_map]
  have hpred : ((fun p : Url × URLRecord => decide (p.1 = v)) ∘
      (fun p => if p.1 = u then (u, r) else p)) = fun p : Url × URLRecord => decide (p.1 = v) := by
    funext p
    simp only [Function.comp]
    rw [storeSet_key]
  rw [hpred]
  cases hfind : s.find? (fun p : Url × URLRecord => decide (p.1 = v)) with
  | none => simp
  | some q =>
    have hq : q.1 = v := by
      have := List.find?_some hfind
      simpa using this
    by_cases hv : v = u
    · simp [hq, hv]
    · have : ¬ q.1 = u := by rw [hq]; exact hv
      simp [this, hv]

/-- Reading any URL in an appended store. -/
theorem storeGet_append (s t : Store) (v : Url) :
    storeGet (s ++ t) v = (storeGet s v).or (storeGet t v) := by
  unfold storeGet
  rw [List.find?_append]
  cases s.find? (fun p : Url × URLRecord => decide (p.1 = v)) <;> simp

/-- Reading any URL after one row of the bulk upsert: the report's URL
holds the merged (or freshly inserted) record, other rows are unchanged. -/
theorem storeGet_upsertOne (s : Store) (f : FoundURL) (v : Url) :
    storeGet (upsertOne s f) v =
      if v = f.url then
        some (match storeGet s f.url with
              | some old => mergeRecord old f
              | none => insertRecord f)
      else storeGet s v := by
  cases h : storeGet s f.url with
  | none =>
    simp only [upsertOne, h]
    rw [storeGet_append]
    by_cases hv : v = f.url
    · subst hv
      rw [h]
      simp [storeGet]
    · have hne : ¬ f.url = v := fun hh => hv hh.symm
      have h2 : storeGet [(f.url, insertRecord f)] v = none := by
        simp [storeGet, hne]
      rw [h2]
      simp [hv]
  | some old =>
    simp only [upsertOne, h]
    rw [storeGet_storeSet]
    by_cases hv : v = f.url
    · subst hv
      rw [h]
      simp
    · simp only [hv, if_false]
      cases storeGet s v <;> simp [hv]

/-- Folding the upsert over value rows that avoid a URL leaves that
URL's row unchanged. -/
theorem storeGet_foldl_not_mem (data : List FoundURL) (s : Store) (v : Url)
    (h : ∀ f ∈ data, f.url ≠ v) :
    storeGet (data.foldl upsertOne s) v = storeGet s v := by
  induction data generalizing s with
  | nil => rfl
  | cons g t ih =>
    simp only [List.foldl_cons]
    rw [ih _ (fun f hf => h f (List.mem_cons_of_mem g hf))]
    rw [storeGet_upsertOne]
    have : ¬ v = g.url := fun hv => (h g (List.mem_cons_self g t)) hv.symm
    simp only [this, if_false]

/-- The one-row effect of the upsert at a URL depends only on the current
row at that URL. -/
theorem storeGet_upsertOne_congr (s1 s2 : Store) (f : FoundURL)
    (h : storeGet s1 f.url = storeGet s2 f.url) :
    storeGet (upsertOne s1 f) f.url = storeGet (upsertOne s2 f) f.url := by
  rw [storeGet_upsertOne, storeGet_upsertOne, h]

/-- Inside a fold of upserts over value rows with pairwise-distinct URLs,
the row of a member's URL ends exactly as the single upsert of that
member leaves it. -/
theorem storeGet_foldl_mem (data : List FoundURL) (s : Store) (f : FoundURL)
    (hnd : (data.map (·.url)).Nodup) (hmem : f ∈ data) :
    storeGet (data.foldl upsertOne s) f.url = storeGet (upsertOne s f) f.url := by
  induction data generalizing s with
  | nil => cases hmem
  | cons g t ih =>
    simp only [List.map_cons, List.nodup_cons] at hnd
    rcases List.mem_cons.mp hmem with hf | hf
    · subst hf
      simp only [List.foldl_cons]
      exact storeGet_foldl_not_mem t (upsertOne s f) f.url
        (fun h ht hh => hnd.1 (hh ▸ List.mem_map_of_mem (·.url) ht))
    · have hgf : g.url ≠ f.url := by
        intro hh
        exact hnd.1 (hh ▸ List.mem_map_of_mem (·.url) hf)
      simp only [List.foldl_cons]
      rw [ih (upsertOne s g) hnd.2 hf]
      refine storeGet_upsertOne_congr _ _ _ ?_
      rw [storeGet_upsertOne]
      have hfg : ¬ f.url = g.url := fun hh => hgf hh.symm
      simp only [hfg, if_false]

/-- Membership in the value rows of the bulk upsert: a report is applied
exactly when its URL is fresh, or present and not locked by a concurrent
transaction. -/
theorem mem_upsertData (s : Store) (found_urls : List FoundURL) (busy : Url → Bool)
    (f : FoundURL) :
    f ∈ upsertData s found_urls busy ↔
      f ∈ found_urls ∧
        ((storeGet s f.url).isNone ∨ ((storeGet s f.url).isSome ∧ busy f.url = false)) := by
  unfold upsertData
  simp only [List.mem_filter]
  constructor
  · rintro ⟨hmem, hcond⟩
    have hmem2 : f ∈ found_urls := (List.mergeSort_perm found_urls _).mem_iff.mp hmem
    refine ⟨hmem2, ?_⟩
    have := of_decide_eq_true hcond
    rcases List.mem_append.mp this with hnew | hlock
    · exact Or.inl (List.mem_filter.mp hnew).2
    · have h2 := (List.mem_filter.mp hlock).2
      simp only [Bool.and_eq_true, Bool.not_eq_true'] at h2
      exact Or.inr h2
  · rintro ⟨hmem, hcond⟩
    have hmem2 : f ∈ found_urls.mergeSort (fun a b => a.url ≤ b.url) :=
      (List.mergeSort_perm found_urls _).mem_iff.mpr hmem
    refine ⟨hmem2, ?_⟩
    have hurl : f.url ∈ found_urls.map (·.url) := List.mem_map_of_mem (·.url) hmem
    refine decide_eq_true ?_
    rcases hcond with hnew | hlock
    · exact List.mem_append.mpr (Or.inl (List.mem_filter.mpr ⟨hurl, by simpa using hnew⟩))
    · refine List.mem_append.mpr (Or.inr (List.mem_filter.mpr ⟨hurl, ?_⟩))
      simp [hlock.1, hlock.2]

/-! Helper lemmas about `batch`. -/

/-- The clamped slice `items[ndx:min(ndx + bs, len)]` equals the
self-truncating `take bs` of the dropped list. -/
theorem batch_slice {α : Type} (l : List α) (bs ndx : ℕ) :
    (l.drop ndx).take (min (ndx + bs) l.length - ndx) = (l.drop ndx).take bs := by
  rcases le_or_lt (ndx + bs) l.length with h | h
  · rw [min_eq_left h, Nat.add_sub_cancel_left]
  · rw [min_eq_right h.le]
    rw [List.take_of_length_le, List.take_of_length_le]
    · rw [List.length_drop]
      omega
    · rw [List.length_drop]

/-- `batch` on the empty list yields nothing. -/
theorem batch_nil {α : Type} (bs : ℕ) : batch ([] : List α) bs = [] := by
  unfold batch
  have h : (List.length ([] : List α) + bs - 1) / bs = 0 := by
    rcases Nat.eq_zero_or_pos bs with h0 | h0
    · subst h0; simp
    · exact Nat.div_eq_of_lt (by simp; omega)
  rw [h]
  rfl

/-- One unrolling of the chunking loop. -/
theorem batch_cons {α : Type} (items : List α) (bs : ℕ) (hbs : 0 < bs)
    (hne : items ≠ []) :
    batch items bs = items.take bs :: batch (items.drop bs) bs := by
  have hn : 0 < items.length := List.length_pos.mpr hne
  have hcount : (items.length + bs - 1) / bs = (items.length - 1) / bs + 1 := by
    have h1 : items.length + bs - 1 = (items.length - 1) + bs := by omega
    rw [h1, Nat.add_div_right _ hbs]
  have hdrop_len : (items.drop bs).length = items.length - bs := List.length_drop bs items
  have hcount' : ((items.drop bs).length + bs - 1) / bs = (items.length - 1) / bs := by
    rw [hdrop_len]
    rcases le_or_lt items.length bs with h | h
    · have h0 : items.length - bs = 0 := by omega
      rw [h0, Nat.div_eq_of_lt (by omega), Nat.div_eq_of_lt (by omega)]
    · congr 1
      omega
  conv_lhs => unfold batch
  rw [hcount, List.range'_succ]
  simp only [List.map_cons]
  congr 1
  · rw [batch_slice]
    simp
  · conv_rhs => unfold batch
    rw [hcount']
    have hr : List.range' (0 + bs) ((items.length - 1) / bs) bs =
        (List.range' 0 ((items.length - 1) / bs) bs).map (fun x => bs + x) := by
      rw [List.map_add_range']
      congr 1
      omega
    rw [hr, List.map_map]
    refine List.map_congr_left ?_
    intro ndx _
    simp only [Function.comp]
    rw [batch_slice, batch_slice, ← List.drop_drop]

/-- Concatenating the chunks reproduces the input (bounded induction). -/
theorem batch_flatten_aux {α : Type} (bs : ℕ) (hbs : 0 < bs) :
    ∀ (n : ℕ) (items : List α), items.length ≤ n → (batch items bs).flatten = items := by
  intro n
  induction n with
  | zero =>
    intro items h
    have : items = [] := List.length_eq_zero.mp (Nat.le_zero.mp h)
    subst this
    rw [batch_nil]
    rfl
  | succ n ih =>
    intro items h
    by_cases hne : items = []
    · subst hne
      rw [batch_nil]
      rfl
    · rw [batch_cons items bs hbs hne]
      have hlen : (items.drop bs).length ≤ n := by
        have h1 : (items.drop bs).length = items.length - bs := List.length_drop bs items
        have h2 : 0 < items.length := List.length_pos.mpr hne
        omega
      simp only [List.flatten_cons]
      rw [ih (items.drop bs) hlen]
      exact List.take_append_drop bs items

/-- Every yielded chunk is non-empty and no longer than the chunk size
(bounded induction). -/
theorem batch_chunks_aux {α : Type} (bs : ℕ) (hbs : 0 < bs) :
    ∀ (n : ℕ) (items : List α), items.length ≤ n →
      ∀ c ∈ batch items bs, c ≠ [] ∧ c.length ≤ bs := by
  intro n
  induction n with
  | zero =>
    intro items h c hc
    have : items = [] := List.length_eq_zero.mp (Nat.le_zero.mp h)
    subst this
    rw [batch_nil] at hc
    cases hc
  | succ n ih =>
    intro items h c hc
    by_cases hne : items = []
    · subst hne
      rw [batch_nil] at hc
      cases hc
    · rw [batch_cons items bs hbs hne] at hc
      rcases List.mem_cons.mp hc with hc | hc
      · subst hc
        constructor
        · have h2 : 0 < items.length := List.length_pos.mpr hne
          have h3 : 0 < (items.take bs).length := by
            rw [List.length_take]
            exact lt_min hbs h2
          exact List.ne_nil_of_length_pos h3
        · rw [List.length_take]
          exact min_le_left _ _
      · have hlen : (items.drop bs).length ≤ n := by
          have h1 : (items.drop bs).length = items.length - bs := List.length_drop bs items
          have h2 : 0 < items.length := List.length_pos.mpr hne
          omega
        exact ih (items.drop bs) hlen c hc

/-- C10: for every list `items` and every positive `batch_size`,
concatenating in order the chunks yielded by `batch(items, batch_size)`
reproduces `items` exactly, and every yielded chunk is non-empty with
length at most `batch_size` (so for empty `items` nothing is yielded). -/
theorem C10_batch_roundtrip {α : Type} (items : List α) (batch_size : ℕ)
    (hbs : 0 < batch_size) :
    (batch items batch_size).flatten = items ∧
      (∀ c ∈ batch items batch_size, c ≠ [] ∧ c.length ≤ batch_size) ∧
      batch ([] : List α) batch_size = [] :=
  ⟨batch_flatten_aux batch_size hbs items.length items le_rfl,
   batch_chunks_aux batch_size hbs items.length items le_rfl,
   batch_nil batch_size⟩

/-- Witness for C10 at a concrete list and chunk size. -/
theorem C10_batch_roundtrip_witness :
    0 < 3 ∧
      ((batch [1, 2, 3, 4, 5, 6, 7] 3).flatten = [1, 2, 3, 4, 5, 6, 7] ∧
        (∀ c ∈ batch [1, 2, 3, 4, 5, 6, 7] 3, c ≠ [] ∧ c.length ≤ 3) ∧
        batch ([] : List ℕ) 3 = []) :=
  ⟨by decide, C10_batch_roundtrip [1, 2, 3, 4, 5, 6, 7] 3 (by decide)⟩

/-- C6: an input list to `update_found_urls` containing two entries with
the same URL fails fast with the duplicate-URL validation error and
leaves the record store completely unchanged; an input with
pairwise-distinct URLs never raises that error. -/
theorem C6_duplicate_url_validation (s : Store) (found_urls : List FoundURL)
    (busy : Url → Bool) :
    (¬ (found_urls.map (·.url)).Nodup →
        update_found_urls s found_urls busy = .error .duplicateUrl ∧
          storeAfter s (update_found_urls s found_urls busy) = s) ∧
    ((found_urls.map (·.url)).Nodup →
        ∃ r, update_found_urls s found_urls busy = .ok r) := by
  by_cases hlen : found_urls.length = 0
  · have hnil : found_urls = [] := List.length_eq_zero.mp hlen
    subst hnil
    refine ⟨fun hdup => absurd (by simp) hdup, fun _ => ⟨⟨s, 0, 0⟩, ?_⟩⟩
    simp [update_found_urls]
  · by_cases hnd : (found_urls.map (·.url)).Nodup
    · refine ⟨fun hdup => absurd hnd hdup, fun _ =>
        ⟨⟨(upsertData s found_urls busy).foldl upsertOne s,
          (upsertData s found_urls busy).length, found_urls.length⟩, ?_⟩⟩
      simp [update_found_urls, hlen, hnd]
    · refine ⟨fun _ => ⟨?_, ?_⟩, fun h => absurd h hnd⟩
      · simp [update_found_urls, hlen, hnd]
      · simp [update_found_urls, hlen, hnd, storeAfter]

/-- Witness for C6: a duplicated URL is rejected with the validation
error at a concrete input. -/
theorem C6_duplicate_url_validation_witness :
    update_found_urls ([] : Store)
        [⟨"a", "A", 1, .NEW, 0⟩, ⟨"a", "B", 1, .NEW, 0⟩] (fun _ => false) =
      .error .duplicateUrl :=
  ((C6_duplicate_url_validation ([] : Store)
      [⟨"a", "A", 1, .NEW, 0⟩, ⟨"a", "B", 1, .NEW, 0⟩]
      (fun _ => false)).1 (by decide)).1

/-- C1: one `update_found_urls` merge of a single unlocked report over an
existing record combines per field — status is the maximum, user_id_hash
and updated keep the existing value exactly when the existing status is
strictly greater (the incoming report wins on ties), score is the sum —
and a report for an absent URL creates the record directly from the
report's fields. -/
theorem C1_merge_policy (s : Store) (f : FoundURL) (busy : Url → Bool)
    (hfree : busy f.url = false) :
    (∀ old, storeGet s f.url = some old →
        storeGet (storeAfter s (update_found_urls s [f] busy)) f.url =
          some { status := max old.status f.status.value,
                 user_id_hash := if old.status > f.status.value then old.user_id_hash
                   else f.user_id_hash,
                 score := old.score + f.score,
                 updated := if old.status > f.status.value then old.updated
                   else f.timestamp }) ∧
    (storeGet s f.url = none →
        storeGet (storeAfter s (update_found_urls s [f] busy)) f.url =
          some { status := f.status.value, user_id_hash := f.user_id_hash,
                 score := f.score, updated := f.timestamp }) := by
  have hdata : upsertData s [f] busy = [f] := by
    cases h : storeGet s f.url with
    | some old => simp [upsertData, h, hfree, List.mergeSort_singleton]
    | none => simp [upsertData, h, List.mergeSort_singleton]
  have hcall : update_found_urls s [f] busy = .ok ⟨upsertOne s f, 1, 1⟩ := by
    simp [update_found_urls, hdata]
  constructor
  · intro old hold
    rw [hcall]
    simp only [storeAfter]
    rw [storeGet_upsertOne]
    simp [hold, mergeRecord]
  · intro hnone
    rw [hcall]
    simp only [storeAfter]
    rw [storeGet_upsertOne]
    simp [hnone, insertRecord]

/-- Witness for C1 at concrete inputs: the §8 scenario (merge of an
ASSIGNED report over a NEW record) and a fresh-URL creation at CRAWLED. -/
theorem C1_merge_policy_witness :
    storeGet (storeAfter [("a", ⟨0, "A", 1, 0⟩)]
        (update_found_urls [("a", ⟨0, "A", 1, 0⟩)]
          [⟨"a", "B", 1/2, .ASSIGNED, 5⟩] (fun _ => false))) "a" =
      some ⟨10, "B", 3/2, 5⟩ ∧
    storeGet (storeAfter ([] : Store)
        (update_found_urls ([] : Store) [⟨"b", "C", 2, .CRAWLED, 7⟩] (fun _ => false))) "b" =
      some ⟨100, "C", 2, 7⟩ := by
  constructor
  · have h := (C1_merge_policy [("a", ⟨0, "A", 1, 0⟩)] ⟨"a", "B", 1/2, .ASSIGNED, 5⟩
      (fun _ => false) rfl).1 ⟨0, "A", 1, 0⟩ (by decide)
    rw [h]
    norm_num [URLStatus.value]
  · have h := (C1_merge_policy ([] : Store) ⟨"b", "C", 2, .CRAWLED, 7⟩
      (fun _ => false) rfl).2 (by decide)
    rw [h]
    rfl

/-- C5 counterexample: it is not the case that the sort of the reports
precedes every row-touching step of `update_found_urls` — the
existence query and the `FOR UPDATE SKIP LOCKED` lock acquisition both
execute before `sorted(found_urls, key=lambda x: x.url)` does. -/
theorem C5_sort_order_counterexample :
    ¬ (∀ i j : Fin mergeCallSteps.length,
        mergeCallSteps.get i = MergeStep.sortReports →
        (mergeCallSteps.get j).touchesRows = true → (i : ℕ) < (j : ℕ)) := by
  decide

/-- C5 amended: inside one `update_found_urls` call the reports are
sorted by URL before the bulk upsert (though after the existence and
lock-acquisition queries have touched rows), so the value rows of the
upsert — the rows it touches and locks — are in ascending URL order. -/
theorem C5_sorted_before_upsert :
    mergeCallSteps.indexOf MergeStep.sortReports <
        mergeCallSteps.indexOf MergeStep.bulkUpsert ∧
      ∀ (s : Store) (found_urls : List FoundURL) (busy : Url → Bool),
        (upsertData s found_urls busy).Pairwise (fun a b => a.url ≤ b.url) := by
  constructor
  · decide
  · intro s found_urls busy
    have hs := @List.sorted_mergeSort FoundURL (fun a b => decide (a.url ≤ b.url))
      (fun a b c hab hbc => by
        simp only [decide_eq_true_eq] at hab hbc ⊢
        exact le_trans hab hbc)
      (fun a b => by
        simp only [Bool.or_eq_true, decide_eq_true_eq]
        exact le_total a.url b.url)
      found_urls
    have hp : (found_urls.mergeSort (fun a b => decide (a.url ≤ b.url))).Pairwise
        (fun a b : FoundURL => a.url ≤ b.url) :=
      hs.imp (fun h => of_decide_eq_true h)
    exact hp.filter _

/-- C3 amended: for a record set to ASSIGNED with `updated = T`, a
`get_new_batch_for_user` call at time `now` treats the URL as eligible
exactly when `now` is strictly after `T` plus one hour (the predicate is
`updated < now - 1 hour`), and as ineligible whenever
`now ≤ T + 1 hour` — including at exactly `T + 1 hour`. -/
theorem C3_lease_expiry_strict (T now : Time) (u : Url) (uid req : UserId) (sc : Score) :
    ((get_new_batch_for_user [(u, ⟨URLStatus.ASSIGNED.value, uid, sc, T⟩)] req now
        (fun _ => false)).1 = [u] ↔ T + HOUR_SECONDS * REASSIGN_MIN_HOURS < now) ∧
    ((get_new_batch_for_user [(u, ⟨URLStatus.ASSIGNED.value, uid, sc, T⟩)] req now
        (fun _ => false)).1 = [] ↔ now ≤ T + HOUR_SECONDS * REASSIGN_MIN_HOURS) := by
  have hlit : HOUR_SECONDS * REASSIGN_MIN_HOURS = 3600 := by
    simp [HOUR_SECONDS, REASSIGN_MIN_HOURS]
  by_cases h : T < now - HOUR_SECONDS * REASSIGN_MIN_HOURS
  · have hsel : (get_new_batch_for_user [(u, ⟨URLStatus.ASSIGNED.value, uid, sc, T⟩)] req now
        (fun _ => false)).1 = [u] := by
      simp [get_new_batch_for_user, is_eligible, URLStatus.value, h,
        List.mergeSort_singleton]
      decide
    rw [hsel]
    rw [hlit] at h ⊢
    constructor
    · simp only [true_iff]
      linarith
    · constructor
      · intro hh
        cases hh
      · intro hh
        linarith
  · have hsel : (get_new_batch_for_user [(u, ⟨URLStatus.ASSIGNED.value, uid, sc, T⟩)] req now
        (fun _ => false)).1 = [] := by
      simp [get_new_batch_for_user, is_eligible, URLStatus.value, h, List.mergeSort_nil]
    rw [hsel]
    rw [hlit] at h ⊢
    constructor
    · constructor
      · intro hh
        cases hh
      · intro hh
        linarith
    · simp only [true_iff]
      linarith

/-- C3 counterexample: a URL assigned at `T = 0` is not treated as
eligible by a call at exactly `now = T + 1 hour = 3600`, although the
claim says any call with `now ≥ T + 1 hour` treats it as eligible. -/
theorem C3_lease_boundary_counterexample :
    (3600 : ℤ) ≥ 0 + HOUR_SECONDS * REASSIGN_MIN_HOURS ∧
      (get_new_batch_for_user [("u", ⟨URLStatus.ASSIGNED.value, "A", 1, 0⟩)] "B" 3600
          (fun _ => false)).1 = [] := by
  constructor
  · norm_num [HOUR_SECONDS, REASSIGN_MIN_HOURS]
  · simp [get_new_batch_for_user, is_eligible, URLStatus.value, HOUR_SECONDS,
      REASSIGN_MIN_HOURS, List.mergeSort_nil]

/-- Witness for C3 amended: one second past the lease horizon the URL is
returned, so the strict boundary is satisfiable. -/
theorem C3_lease_expiry_strict_witness :
    (get_new_batch_for_user [("u", ⟨URLStatus.ASSIGNED.value, "A", 1, 0⟩)] "B" 3601
        (fun _ => false)).1 = ["u"] :=
  (C3_lease_expiry_strict 0 3601 "u" "A" "B" 1).1.mpr
    (by norm_num [HOUR_SECONDS, REASSIGN_MIN_HOURS])

/-- One single-report uncontended merge call, read back at the report's
URL: the record is merged when present and inserted when absent. -/
theorem update_single_get (st : Store) (f : FoundURL) :
    storeGet (storeAfter st (update_found_urls st [f] (fun _ => false))) f.url =
      some (match storeGet st f.url with
            | some old => mergeRecord old f
            | none => insertRecord f) := by
  have hdata : upsertData st [f] (fun _ => false) = [f] := by
    cases h : storeGet st f.url with
    | some old => simp [upsertData, h, List.mergeSort_singleton]
    | none => simp [upsertData, h, List.mergeSort_singleton]
  have hcall : update_found_urls st [f] (fun _ => false) = .ok ⟨upsertOne st f, 1, 1⟩ := by
    simp [update_found_urls, hdata]
  rw [hcall]
  simp only [storeAfter]
  rw [storeGet_upsertOne]
  simp

/-- Status after one single-report uncontended merge call at the
report's URL. -/
theorem update_single_statusOf (st : Store) (f : FoundURL) :
    statusOf (storeAfter st (update_found_urls st [f] (fun _ => false))) f.url =
      some (match statusOf st f.url with
            | some v => max v f.status.value
            | none => f.status.value) := by
  unfold statusOf
  rw [update_single_get]
  cases h : storeGet st f.url with
  | some old => simp [h, mergeRecord]
  | none => simp [h, insertRecord]

/-- Running a sequence of single-report merges for one URL folds `max`
over the incoming status values, starting from the current status. -/
theorem runMerges_statusOf (u : Url) :
    ∀ (fs : List FoundURL), (∀ f ∈ fs, f.url = u) → ∀ (s : Store) (v : ℕ),
      statusOf s u = some v →
      statusOf (runMerges s fs) u =
        some ((fs.map (fun f => f.status.value)).foldl max v) := by
  intro fs
  induction fs with
  | nil =>
    intro _ s v hv
    simpa [runMerges] using hv
  | cons f t ih =>
    intro hall s v hv
    have hfu : f.url = u := hall f (List.mem_cons_self f t)
    have hstep : statusOf (storeAfter s (update_found_urls s [f] (fun _ => false))) u =
        some (max v f.status.value) := by
      rw [← hfu] at hv ⊢
      rw [update_single_statusOf, hv]
    have hrest := ih (fun g hg => hall g (List.mem_cons_of_mem f hg))
      (storeAfter s (update_found_urls s [f] (fun _ => false))) (max v f.status.value) hstep
    simpa [runMerges, List.foldl_cons] using hrest

/-- C2: for a single URL and a sequence of uncontended merge calls with
statuses `s1..sn`, the persisted status afterwards is `max(s1..sn)` under
the numeric rank order of `URLStatus`, the result is invariant under
permuting the sequence, and no single merge ever decreases a persisted
status. -/
theorem C2_status_max_monotone (u : Url) (fs : List FoundURL) (s : Store)
    (hall : ∀ f ∈ fs, f.url = u) (habs : storeGet s u = none) (hne : fs ≠ []) :
    (statusOf (runMerges s fs) u =
        some ((fs.map (fun f => f.status.value)).foldl max 0)) ∧
    (∀ gs, gs.Perm fs →
        statusOf (runMerges s gs) u = statusOf (runMerges s fs) u) ∧
    (∀ (st : Store) (f : FoundURL) (v : ℕ), f.url = u → statusOf st u = some v →
        ∃ w, statusOf (storeAfter st (update_found_urls st [f] (fun _ => false))) u =
            some w ∧ v ≤ w) := by
  have key : ∀ (hs : List FoundURL), hs ≠ [] → (∀ f ∈ hs, f.url = u) →
      statusOf (runMerges s hs) u =
        some ((hs.map (fun f => f.status.value)).foldl max 0) := by
    intro hs hne hall
    match hs, hne with
    | f :: t, _ =>
      have hfu : f.url = u := hall f (List.mem_cons_self f t)
      have hstep : statusOf (storeAfter s (update_found_urls s [f] (fun _ => false))) u =
          some f.status.value := by
        rw [← hfu]
        rw [update_single_statusOf]
        rw [hfu]
        have : statusOf s u = none := by simp [statusOf, habs]
        rw [this]
      have hrest := runMerges_statusOf u t (fun g hg => hall g (List.mem_cons_of_mem f hg))
        (storeAfter s (update_found_urls s [f] (fun _ => false))) f.status.value hstep
      have hfold : (t.map (fun f => f.status.value)).foldl max f.status.value =
          ((f :: t).map (fun f => f.status.value)).foldl max 0 := by
        simp [List.foldl_cons]
      rw [← hfold]
      simpa [runMerges, List.foldl_cons] using hrest
  refine ⟨key fs hne hall, ?_, ?_⟩
  · intro gs hperm
    have hgall : ∀ f ∈ gs, f.url = u := fun f hf => hall f (hperm.mem_iff.mp hf)
    have hgne : gs ≠ [] := by
      intro h
      subst h
      exact hne hperm.symm.eq_nil
    rw [key gs hgne hgall, key fs hne hall]
    haveI : RightCommutative (max : ℕ → ℕ → ℕ) := ⟨fun b a1 a2 => by omega⟩
    have h2 := List.Perm.foldl_eq (f := max) (hperm.map (fun f => f.status.value)) (0 : ℕ)
    simp only [h2]
  · intro st f v hfu hst
    refine ⟨max v f.status.value, ?_, le_max_left _ _⟩
    rw [← hfu] at hst ⊢
    rw [update_single_statusOf, hst]

/-- Witness for C2 at a concrete two-report sequence (CRAWLED then NEW):
the persisted status is the maximum, 100. -/
theorem C2_status_max_monotone_witness :
    statusOf (runMerges ([] : Store)
        [⟨"a", "A", 1, .CRAWLED, 0⟩, ⟨"a", "B", 2, .NEW, 1⟩]) "a" = some 100 :=
  (C2_status_max_monotone "a" [⟨"a", "A", 1, .CRAWLED, 0⟩, ⟨"a", "B", 2, .NEW, 1⟩]
      ([] : Store) (by decide) rfl (by decide)).1.trans (by decide)

/-- Folding `dict.update` of per-chunk query results over any chunk list
yields, at each URL, the store's score if some chunk mentions the URL and
the accumulator's entry otherwise — provided the accumulator never
disagrees with the store. -/
theorem foldl_chunkScores_char (s : Store) :
    ∀ (cs : List (List Url)) (acc : ScoreMap) (u : Url),
      (acc u = none ∨ acc u = (storeGet s u).map (·.score)) →
      (cs.foldl (fun m c => dictUpdate m (chunkScores s c)) acc) u =
        if u ∈ cs.flatten then (storeGet s u).map (·.score) else acc u := by
  intro cs
  induction cs with
  | nil =>
    intro acc u _
    simp
  | cons c t ih =>
    intro acc u hinv
    have hstep : ∀ w,
        dictUpdate acc (chunkScores s c) u = w →
        (w = acc u ∨ w = (storeGet s u).map (·.score)) := by
      intro w hw
      by_cases hc : u ∈ c
      · cases hg : storeGet s u with
        | none =>
          left
          rw [← hw]
          simp [dictUpdate, chunkScores, hc, hg]
        | some r =>
          right
          rw [← hw]
          simp [dictUpdate, chunkScores, hc, hg]
      · left
        rw [← hw]
        simp [dictUpdate, chunkScores, hc]
    have hinv2 : dictUpdate acc (chunkScores s c) u = none ∨
        dictUpdate acc (chunkScores s c) u = (storeGet s u).map (·.score) := by
      rcases hstep _ rfl with h | h
      · rcases hinv with h0 | h0
        · exact Or.inl (h.trans h0)
        · exact Or.inr (h.trans h0)
      · exact Or.inr h
    have := ih (dictUpdate acc (chunkScores s c)) u hinv2
    simp only [List.foldl_cons]
    rw [this]
    by_cases ht : u ∈ t.flatten
    · simp [List.flatten_cons, ht]
    · by_cases hc : u ∈ c
      · have hmem : u ∈ (c :: t).flatten := by
          simp [List.flatten_cons, hc]
        rw [if_neg ht, if_pos hmem]
        cases hg : storeGet s u with
        | none =>
          simp only [Option.map_none']
          have h1 : dictUpdate acc (chunkScores s c) u = acc u := by
            simp [dictUpdate, chunkScores, hc, hg]
          rw [h1]
          rcases hinv with h0 | h0
          · exact h0
          · rw [h0, hg]
            rfl
        | some r =>
          simp [dictUpdate, chunkScores, hc, hg]
      · have hmem : u ∉ (c :: t).flatten := by
          simp [List.flatten_cons, hc, ht]
        rw [if_neg ht, if_neg hmem]
        simp [dictUpdate, chunkScores, hc]

/-- Pointwise characterization of `get_url_scores`: a URL maps to its
stored score when it is requested and present, and is absent otherwise. -/
theorem get_url_scores_char (s : Store) (urls : List Url) (u : Url) :
    get_url_scores s urls u = if u ∈ urls then (storeGet s u).map (·.score) else none := by
  unfold get_url_scores
  rw [foldl_chunkScores_char s (batch urls 10000) (fun _ => none) u (Or.inl rfl)]
  rw [batch_flatten_aux 10000 (by norm_num) urls.length urls le_rfl]

/-- The merge of sequential per-part `get_url_scores` calls has the same
pointwise characterization over the concatenation of the parts. -/
theorem merged_parts_char (s : Store) (parts : List (List Url)) (u : Url) :
    (parts.foldl (fun acc part => dictUpdate acc (get_url_scores s part))
        (fun _ => none)) u =
      if u ∈ parts.flatten then (storeGet s u).map (·.score) else none := by
  have hfn : ∀ part, get_url_scores s part = chunkScores s part := by
    intro part
    funext w
    rw [get_url_scores_char]
    rfl
  simp only [hfn]
  exact foldl_chunkScores_char s parts (fun _ => none) u (Or.inl rfl)

/-- C7: `get_url_scores` is a pure chunked read; over any input list it
agrees pointwise with the right-biased merge of sequential calls on
consecutive sublists of at most 10,000 URLs each, and every URL absent
from the store is absent from the result mapping. -/
theorem C7_chunked_read (s : Store) (urls : List Url) (parts : List (List Url))
    (hjoin : parts.flatten = urls) (hsize : ∀ p ∈ parts, p.length ≤ 10000) :
    (∀ u, get_url_scores s urls u =
        (parts.foldl (fun acc part => dictUpdate acc (get_url_scores s part))
          (fun _ => none)) u) ∧
    (∀ u, storeGet s u = none → get_url_scores s urls u = none) := by
  constructor
  · intro u
    rw [get_url_scores_char, merged_parts_char, hjoin]
  · intro u h
    rw [get_url_scores_char, h]
    by_cases hu : u ∈ urls <;> simp [hu]

/-- Witness for C7 at a concrete store, a three-URL read split into two
parts, and an absent URL. -/
theorem C7_chunked_read_witness :
    get_url_scores [("a", ⟨0, "A", 3, 0⟩), ("b", ⟨0, "B", 7, 0⟩)] ["a", "b", "zz"] "a" =
      ([["a"], ["b", "zz"]].foldl
        (fun acc part =>
          dictUpdate acc (get_url_scores [("a", ⟨0, "A", 3, 0⟩), ("b", ⟨0, "B", 7, 0⟩)] part))
        (fun _ => none)) "a" ∧
    get_url_scores [("a", ⟨0, "A", 3, 0⟩), ("b", ⟨0, "B", 7, 0⟩)] ["a", "b", "zz"] "zz" =
      none :=
  ⟨(C7_chunked_read [("a", ⟨0, "A", 3, 0⟩), ("b", ⟨0, "B", 7, 0⟩)] ["a", "b", "zz"]
      [["a"], ["b", "zz"]] rfl (by decide)).1 "a",
   (C7_chunked_read [("a", ⟨0, "A", 3, 0⟩), ("b", ⟨0, "B", 7, 0⟩)] ["a", "b", "zz"]
      [["a"], ["b", "zz"]] rfl (by decide)).2 "zz" (by decide)⟩

/-- The value rows of the bulk upsert keep pairwise-distinct URLs when
the input reports have pairwise-distinct URLs. -/
theorem upsertData_urls_nodup (s : Store) (found_urls : List FoundURL) (busy : Url → Bool)
    (hnd : (found_urls.map (·.url)).Nodup) :
    ((upsertData s found_urls busy).map (·.url)).Nodup := by
  have hperm := (List.mergeSort_perm found_urls (fun a b => a.url ≤ b.url)).map (·.url)
  have h1 : ((found_urls.mergeSort (fun a b => a.url ≤ b.url)).map (·.url)).Nodup :=
    hperm.nodup_iff.mpr hnd
  have h2 : List.Sublist (upsertData s found_urls busy)
      (found_urls.mergeSort (fun a b => a.url ≤ b.url)) := List.filter_sublist _
  exact ((h2.map (·.url)).nodup h1 : _)

/-- The number of applied rows equals the number of input reports whose
URL is fresh or unlocked. -/
theorem upsertData_length (s : Store) (found_urls : List FoundURL) (busy : Url → Bool) :
    (upsertData s found_urls busy).length =
      (found_urls.filter (fun f => (storeGet s f.url).isNone || !busy f.url)).length := by
  have hcongr : ∀ g ∈ found_urls.mergeSort (fun a b => a.url ≤ b.url),
      (decide (g.url ∈
          ((found_urls.map (·.url)).filter (fun u => (storeGet s u).isNone) ++
            (found_urls.map (·.url)).filter (fun u => (storeGet s u).isSome && !busy u)))) =
        ((storeGet s g.url).isNone || !busy g.url) := by
    intro g hg
    have hgfs : g ∈ found_urls :=
      (List.mergeSort_perm found_urls (fun a b => a.url ≤ b.url)).mem_iff.mp hg
    have hurl : g.url ∈ found_urls.map (·.url) := List.mem_map_of_mem (·.url) hgfs
    by_cases hn : (storeGet s g.url).isNone
    · simp [List.mem_append, List.mem_filter, hurl, hn]
    · have hsome : (storeGet s g.url).isSome := by
        cases hx : storeGet s g.url with
        | none => rw [hx] at hn; simp at hn
        | some r => simp
      by_cases hb : busy g.url
      · simp [List.mem_append, List.mem_filter, hurl, hn, hsome, hb]
      · simp [List.mem_append, List.mem_filter, hurl, hn, hsome, hb]
  have hrw : upsertData s found_urls busy =
      (found_urls.mergeSort (fun a b => a.url ≤ b.url)).filter
        (fun f => (storeGet s f.url).isNone || !busy f.url) := by
    unfold upsertData
    exact List.filter_congr hcongr
  rw [hrw]
  exact ((List.mergeSort_perm found_urls (fun a b => a.url ≤ b.url)).filter _).length_eq

/-- C8: with pairwise-distinct input URLs, the bulk upsert of
`update_found_urls` applies exactly the reports whose URL is fresh or
whose existing row's lock was acquired; reports for present rows locked
by a concurrent transaction are excluded without retry and those rows
are left unchanged, rows outside the input are untouched, the
applied-versus-requested counts are observable, and the call does not
fail. -/
theorem C8_contention_skip (s : Store) (found_urls : List FoundURL) (busy : Url → Bool)
    (hnd : (found_urls.map (·.url)).Nodup) :
    (update_found_urls s found_urls busy).isOk = true ∧
    (∀ f ∈ found_urls,
      (storeGet s f.url = none →
        storeGet (storeAfter s (update_found_urls s found_urls busy)) f.url =
          some (insertRecord f)) ∧
      (∀ old, storeGet s f.url = some old → busy f.url = false →
        storeGet (storeAfter s (update_found_urls s found_urls busy)) f.url =
          some (mergeRecord old f)) ∧
      (∀ old, storeGet s f.url = some old → busy f.url = true →
        storeGet (storeAfter s (update_found_urls s found_urls busy)) f.url = some old)) ∧
    (∀ v, v ∉ found_urls.map (·.url) →
      storeGet (storeAfter s (update_found_urls s found_urls busy)) v = storeGet s v) ∧
    appliedOf (update_found_urls s found_urls busy) =
      (found_urls.filter (fun f => (storeGet s f.url).isNone || !busy f.url)).length ∧
    requestedOf (update_found_urls s found_urls busy) = found_urls.length := by
  by_cases hlen : found_urls.length = 0
  · have hnil : found_urls = [] := List.length_eq_zero.mp hlen
    subst hnil
    refine ⟨rfl, ?_, ?_, ?_, rfl⟩
    · intro f hf
      cases hf
    · intro v _
      rfl
    · rfl
  · have hcall : update_found_urls s found_urls busy =
        .ok ⟨(upsertData s found_urls busy).foldl upsertOne s,
          (upsertData s found_urls busy).length, found_urls.length⟩ := by
      simp [update_found_urls, hlen, hnd]
    have hdnd := upsertData_urls_nodup s found_urls busy hnd
    refine ⟨by rw [hcall]; rfl, ?_, ?_, ?_, ?_⟩
    · intro f hf
      refine ⟨?_, ?_, ?_⟩
      · intro hg
        have hmem : f ∈ upsertData s found_urls busy :=
          (mem_upsertData s found_urls busy f).mpr ⟨hf, Or.inl (by simp [hg])⟩
        rw [hcall]
        simp only [storeAfter]
        rw [storeGet_foldl_mem _ _ _ hdnd hmem, storeGet_upsertOne]
        simp [hg]
      · intro old hg hb
        have hmem : f ∈ upsertData s found_urls busy :=
          (mem_upsertData s found_urls busy f).mpr ⟨hf, Or.inr ⟨by simp [hg], hb⟩⟩
        rw [hcall]
        simp only [storeAfter]
        rw [storeGet_foldl_mem _ _ _ hdnd hmem, storeGet_upsertOne]
        simp [hg]
      · intro old hg hb
        have hnotin : ∀ g ∈ upsertData s found_urls busy, g.url ≠ f.url := by
          intro g hgmem heq
          have hsplit := (mem_upsertData s found_urls busy g).mp hgmem
          have hgf : g = f :=
            List.inj_on_of_nodup_map hnd hsplit.1 hf heq
          subst hgf
          rcases hsplit.2 with hnone | ⟨_, hfree⟩
          · rw [hg] at hnone
            simp at hnone
          · rw [hb] at hfree
            cases hfree
        rw [hcall]
        simp only [storeAfter]
        rw [storeGet_foldl_not_mem _ _ _ hnotin, hg]
    · intro v hv
      rw [hcall]
      simp only [storeAfter]
      refine storeGet_foldl_not_mem _ _ _ ?_
      intro g hgmem heq
      have hgfs := ((mem_upsertData s found_urls busy g).mp hgmem).1
      exact hv (heq ▸ List.mem_map_of_mem (·.url) hgfs)
    · rw [hcall]
      simp only [appliedOf]
      exact upsertData_length s found_urls busy
    · rw [hcall]
      rfl

/-- Witness for C8: a report for a present row locked by a concurrent
transaction is skipped — the row keeps its old record, zero rows are
applied, one was requested, and the call still succeeds. -/
theorem C8_contention_skip_witness :
    storeGet (storeAfter [("b", ⟨0, "B", 1, 0⟩)]
        (update_found_urls [("b", ⟨0, "B", 1, 0⟩)] [⟨"b", "X", 5, .CRAWLED, 9⟩]
          (fun u => u == "b"))) "b" = some ⟨0, "B", 1, 0⟩ ∧
    appliedOf (update_found_urls [("b", ⟨0, "B", 1, 0⟩)] [⟨"b", "X", 5, .CRAWLED, 9⟩]
        (fun u => u == "b")) = 0 ∧
    requestedOf (update_found_urls [("b", ⟨0, "B", 1, 0⟩)] [⟨"b", "X", 5, .CRAWLED, 9⟩]
        (fun u => u == "b")) = 1 ∧
    (update_found_urls [("b", ⟨0, "B", 1, 0⟩)] [⟨"b", "X", 5, .CRAWLED, 9⟩]
        (fun u => u == "b")).isOk = true := by
  have h := C8_contention_skip [("b", ⟨0, "B", 1, 0⟩)] [⟨"b", "X", 5, .CRAWLED, 9⟩]
    (fun u => u == "b") (by decide)
  refine ⟨?_, ?_, ?_, h.1⟩
  · exact (h.2.1 ⟨"b", "X", 5, .CRAWLED, 9⟩ (List.mem_cons_self _ _)).2.2
      ⟨0, "B", 1, 0⟩ (by decide) rfl
  · rw [h.2.2.2.1]
    decide
  · rw [h.2.2.2.2]
    decide

/-- With pairwise-distinct keys, any table entry is what `storeGet`
returns for its URL. -/
theorem storeGet_of_mem_nodup (s : Store) (hkeys : (s.map (·.1)).Nodup)
    (u : Url) (r : URLRecord) (h : (u, r) ∈ s) : storeGet s u = some r := by
  induction s with
  | nil => cases h
  | cons p t ih =>
    simp only [List.map_cons, List.nodup_cons] at hkeys
    rcases List.mem_cons.mp h with hh | hh
    · subst hh
      simp [storeGet]
    · have hne : ¬ p.1 = u := by
        intro he
        exact hkeys.1 (he ▸ List.mem_map_of_mem (·.1) hh)
      have := ih hkeys.2 hh
      simp only [storeGet, List.find?_cons] at this ⊢
      simp only [hne, decide_eq_true_eq]
      simpa [hne] using this

/-- Reading any URL after the lease allocator's `UPDATE`: selected rows
are reassigned (keeping their score), other rows are unchanged. -/
theorem storeGet_assignSelected (s : Store) (sel : List Url) (uid : UserId) (now : Time)
    (v : Url) :
    storeGet (s.map (fun p =>
        if p.1 ∈ sel then (p.1, ⟨URLStatus.ASSIGNED.value, uid, p.2.score, now⟩) else p)) v =
      (storeGet s v).map (fun r =>
        if v ∈ sel then ⟨URLStatus.ASSIGNED.value, uid, r.score, now⟩ else r) := by
  unfold storeGet
  rw [List.find?_map]
  have hkey : ∀ p : Url × URLRecord,
      ((if p.1 ∈ sel then ((p.1, ⟨URLStatus.ASSIGNED.value, uid, p.2.score, now⟩) :
          Url × URLRecord) else p)).1 = p.1 := by
    intro p
    by_cases hp : p.1 ∈ sel <;> simp [hp]
  have hpred : ((fun p : Url × URLRecord => decide (p.1 = v)) ∘
      (fun p => if p.1 ∈ sel then ((p.1, ⟨URLStatus.ASSIGNED.value, uid, p.2.score, now⟩) :
        Url × URLRecord) else p)) = fun p : Url × URLRecord => decide (p.1 = v) := by
    funext p
    simp only [Function.comp]
    rw [hkey]
  rw [hpred]
  cases hfind : s.find? (fun p : Url × URLRecord => decide (p.1 = v)) with
  | none => simp
  | some q =>
    have hq : q.1 = v := by
      have := List.find?_some hfind
      simpa using this
    subst hq
    by_cases hv : q.1 ∈ sel
    · simp [hv]
    · simp [hv]

/-- Every row of the take of the sorted candidate list is an eligible,
non-busy row of the table. -/
theorem gnb_take_mem (s : Store) (busy : Url → Bool) (md : Time)
    (p : Url × URLRecord)
    (hp : p ∈ ((s.filter (fun q => is_eligible q.2 md && !busy q.1)).mergeSort
        (fun a b => b.2.score ≤ a.2.score)).take BATCH_SIZE) :
    p ∈ s ∧ is_eligible p.2 md = true ∧ busy p.1 = false := by
  have h1 : p ∈ (s.filter (fun q => is_eligible q.2 md && !busy q.1)).mergeSort
      (fun a b => b.2.score ≤ a.2.score) := (List.take_sublist _ _).subset hp
  have h2 : p ∈ s.filter (fun q => is_eligible q.2 md && !busy q.1) :=
    (List.mergeSort_perm _ _).mem_iff.mp h1
  have h3 := List.mem_filter.mp h2
  have h4 := h3.2
  simp only [Bool.and_eq_true, Bool.not_eq_true'] at h4
  exact ⟨h3.1, h4.1, h4.2⟩

/-- The candidate list of an uncontended lease call is the list of
eligible rows. -/
theorem gnb_candidates_no_busy (s : Store) (md : Time) :
    s.filter (fun p => is_eligible p.2 md && !(fun _ : Url => false) p.1) =
      s.filter (fun p => is_eligible p.2 md) := by
  refine List.filter_congr ?_
  intro p _
  simp

/-- The sorted candidate list is pairwise descending in score. -/
theorem gnb_sorted_pairwise (c : List (Url × URLRecord)) :
    (c.mergeSort (fun a b => b.2.score ≤ a.2.score)).Pairwise
      (fun a b : Url × URLRecord => b.2.score ≤ a.2.score) := by
  have hs := @List.sorted_mergeSort (Url × URLRecord)
    (fun a b => decide (b.2.score ≤ a.2.score))
    (fun a b d hab hbd => by
      simp only [decide_eq_true_eq] at hab hbd ⊢
      exact le_trans hbd hab)
    (fun a b => by
      simp only [Bool.or_eq_true, decide_eq_true_eq]
      exact le_total b.2.score a.2.score)
    c
  exact hs.imp (fun h => of_decide_eq_true h)

/-- C4: with the `urls` primary key respected and no contention, every
`get_new_batch_for_user` call returns at most `BATCH_SIZE = 100` URLs,
each returned URL was an eligible row of the table, each returned URL's
record is updated in the same step to `(ASSIGNED, requester, now)`
keeping its score, the returned URLs are in descending score order, and
when at most 100 rows are eligible every eligible row is returned. -/
theorem C4_lease_batch (s : Store) (uid : UserId) (now : Time)
    (hkeys : (s.map (·.1)).Nodup) :
    (get_new_batch_for_user s uid now (fun _ => false)).1.length ≤ BATCH_SIZE ∧
    (∀ u ∈ (get_new_batch_for_user s uid now (fun _ => false)).1,
      ∃ r, storeGet s u = some r ∧
        is_eligible r (now - HOUR_SECONDS * REASSIGN_MIN_HOURS) = true) ∧
    (∀ u r, storeGet s u = some r →
      u ∈ (get_new_batch_for_user s uid now (fun _ => false)).1 →
      storeGet (get_new_batch_for_user s uid now (fun _ => false)).2 u =
        some ⟨URLStatus.ASSIGNED.value, uid, r.score, now⟩) ∧
    ((s.filter (fun p =>
        is_eligible p.2 (now - HOUR_SECONDS * REASSIGN_MIN_HOURS))).length ≤ BATCH_SIZE →
      ∀ p ∈ s, is_eligible p.2 (now - HOUR_SECONDS * REASSIGN_MIN_HOURS) = true →
        p.1 ∈ (get_new_batch_for_user s uid now (fun _ => false)).1) ∧
    (get_new_batch_for_user s uid now (fun _ => false)).1.Pairwise
      (fun u v => ∀ ru rv, storeGet s u = some ru → storeGet s v = some rv →
        rv.score ≤ ru.score) := by
  have hfst : (get_new_batch_for_user s uid now (fun _ => false)).1 =
      (((s.filter (fun p => is_eligible p.2 (now - HOUR_SECONDS * REASSIGN_MIN_HOURS) &&
          !(fun _ : Url => false) p.1)).mergeSort
        (fun a b => b.2.score ≤ a.2.score)).take BATCH_SIZE).map (·.1) := rfl
  have hsnd : (get_new_batch_for_user s uid now (fun _ => false)).2 =
      s.map (fun p =>
        if p.1 ∈ (get_new_batch_for_user s uid now (fun _ => false)).1 then
          (p.1, ⟨URLStatus.ASSIGNED.value, uid, p.2.score, now⟩) else p) := rfl
  refine ⟨?_, ?_, ?_, ?_, ?_⟩
  · rw [hfst, List.length_map, List.length_take]
    exact min_le_left _ _
  · intro u hu
    rw [hfst] at hu
    obtain ⟨p, hp, hpu⟩ := List.mem_map.mp hu
    obtain ⟨hps, helig, _⟩ := gnb_take_mem s (fun _ => false) _ p hp
    subst hpu
    exact ⟨p.2, storeGet_of_mem_nodup s hkeys p.1 p.2 hps, helig⟩
  · intro u r hr hu
    rw [hsnd, storeGet_assignSelected, hr]
    simp [hu]
  · intro hle p hps helig
    rw [hfst]
    have hcand := gnb_candidates_no_busy s (now - HOUR_SECONDS * REASSIGN_MIN_HOURS)
    rw [hcand]
    set c := s.filter (fun p =>
      is_eligible p.2 (now - HOUR_SECONDS * REASSIGN_MIN_HOURS)) with hc
    have hlen : (c.mergeSort (fun a b => b.2.score ≤ a.2.score)).length ≤ BATCH_SIZE := by
      rw [(List.mergeSort_perm c _).length_eq]
      exact hle
    rw [List.take_of_length_le hlen]
    have hpmem : p ∈ c := by
      rw [hc]
      exact List.mem_filter.mpr ⟨hps, helig⟩
    have hpsorted : p ∈ c.mergeSort (fun a b => b.2.score ≤ a.2.score) :=
      (List.mergeSort_perm c _).mem_iff.mpr hpmem
    exact List.mem_map.mpr ⟨p, hpsorted, rfl⟩
  · rw [hfst]
    rw [List.pairwise_map]
    have htake : (((s.filter (fun p =>
        is_eligible p.2 (now - HOUR_SECONDS * REASSIGN_MIN_HOURS) &&
          !(fun _ : Url => false) p.1)).mergeSort
        (fun a b => b.2.score ≤ a.2.score)).take BATCH_SIZE).Pairwise
        (fun a b : Url × URLRecord => b.2.score ≤ a.2.score) :=
      List.Pairwise.sublist (List.take_sublist _ _) (gnb_sorted_pairwise _)
    refine htake.imp_of_mem ?_
    intro a b ha hb hab
    intro ru rv hru hrv
    have haa := gnb_take_mem s (fun _ => false) _ a ha
    have hbb := gnb_take_mem s (fun _ => false) _ b hb
    have hga : storeGet s a.1 = some a.2 := storeGet_of_mem_nodup s hkeys a.1 a.2 haa.1
    have hgb : storeGet s b.1 = some b.2 := storeGet_of_mem_nodup s hkeys b.1 b.2 hbb.1
    rw [hga] at hru
    rw [hgb] at hrv
    cases hru
    cases hrv
    exact hab

/-- Witness for C4 at a concrete one-row table: a NEW row is returned
(within the batch bound) and reassigned to the requester at the call
time, keeping its score. -/
theorem C4_lease_batch_witness :
    (get_new_batch_for_user [("u1", ⟨0, "A", 1, 0⟩)] "me" 4000
        (fun _ => false)).1.length ≤ BATCH_SIZE ∧
      storeGet (get_new_batch_for_user [("u1", ⟨0, "A", 1, 0⟩)] "me" 4000
          (fun _ => false)).2 "u1" =
        some ⟨URLStatus.ASSIGNED.value, "me", 1, 4000⟩ := by
  have h := C4_lease_batch [("u1", ⟨0, "A", 1, 0⟩)] "me" 4000 (by decide)
  refine ⟨h.1, ?_⟩
  refine h.2.2.1 "u1" ⟨0, "A", 1, 0⟩ (by decide) ?_
  have hret : (get_new_batch_for_user [("u1", ⟨0, "A", 1, 0⟩)] "me" 4000
      (fun _ => false)).1 = ["u1"] := by
    simp [get_new_batch_for_user, is_eligible, URLStatus.value, List.mergeSort_singleton]
    try decide
  rw [hret]
  exact List.mem_singleton.mpr rfl

/-- C9: two concurrent `get_new_batch_for_user` calls never return
overlapping URLs: the second call's `FOR UPDATE SKIP LOCKED` select
skips every row still locked by the first call's transaction, so a call
whose skip set covers the first call's returned URLs returns a disjoint
set. -/
theorem C9_disjoint_batches (s : Store) (u1 u2 : UserId) (now : Time)
    (busy1 busy2 : Url → Bool)
    (hlock : ∀ u ∈ (get_new_batch_for_user s u1 now busy1).1, busy2 u = true) :
    ∀ u ∈ (get_new_batch_for_user s u2 now busy2).1,
      u ∉ (get_new_batch_for_user s u1 now busy1).1 := by
  intro u hu hmem
  have hfst : (get_new_batch_for_user s u2 now busy2).1 =
      (((s.filter (fun p => is_eligible p.2 (now - HOUR_SECONDS * REASSIGN_MIN_HOURS) &&
          !busy2 p.1)).mergeSort
        (fun a b => b.2.score ≤ a.2.score)).take BATCH_SIZE).map (·.1) := rfl
  rw [hfst] at hu
  obtain ⟨p, hp, hpu⟩ := List.mem_map.mp hu
  obtain ⟨_, _, hfree⟩ := gnb_take_mem s busy2 _ p hp
  subst hpu
  have hbusy := hlock p.1 hmem
  rw [hbusy] at hfree
  cases hfree

/-- Witness for C9: two rows, each call's skip set covering the other's
lock; the second call returns only the URL the first did not take. -/
theorem C9_disjoint_batches_witness :
    "a" ∈ (get_new_batch_for_user [("a", ⟨0, "A", 1, 0⟩), ("b", ⟨0, "B", 2, 0⟩)] "w2" 0
        (fun u => u == "b")).1 ∧
    "a" ∉ (get_new_batch_for_user [("a", ⟨0, "A", 1, 0⟩), ("b", ⟨0, "B", 2, 0⟩)] "w1" 0
        (fun u => u == "a")).1 := by
  have hb1 : (get_new_batch_for_user [("a", ⟨0, "A", 1, 0⟩), ("b", ⟨0, "B", 2, 0⟩)] "w1" 0
      (fun u => u == "a")).1 = ["b"] := by
    simp [get_new_batch_for_user, is_eligible, URLStatus.value, List.mergeSort_singleton]
    try decide
  have hb2 : (get_new_batch_for_user [("a", ⟨0, "A", 1, 0⟩), ("b", ⟨0, "B", 2, 0⟩)] "w2" 0
      (fun u => u == "b")).1 = ["a"] := by
    simp [get_new_batch_for_user, is_eligible, URLStatus.value, List.mergeSort_singleton]
    try decide
  refine ⟨by rw [hb2]; exact List.mem_singleton.mpr rfl, ?_⟩
  refine C9_disjoint_batches [("a", ⟨0, "A", 1, 0⟩), ("b", ⟨0, "B", 2, 0⟩)] "w1" "w2" 0
    (fun u => u == "a") (fun u => u == "b") ?_ "a" ?_
  · intro u hu
    rw [hb1] at hu
    obtain rfl := List.mem_singleton.mp hu
    rfl
  · rw [hb2]
    exact List.mem_singleton.mpr rfl
